import Mathlib

/-!
Verification of the cache layer of the greenfedora-utils repository:
`CacheGroup`, `Cache` and `FileCache`, together with the path helpers of
`GfPath` that they use.  JavaScript `Map` objects are modelled as
insertion-ordered association lists; JavaScript plain objects used as
string-keyed registries are modelled the same way (string keys keep
insertion order).  Thrown errors are modelled with `Except`.
-/

set_option maxHeartbeats 1000000

namespace GfUtils

/-- Error taxonomy of the cache layer.  Each constructor carries the exact
message string the source interpolates. -/
inductive GfErr where
  | reservedGroup (msg : String)
  | duplicateGroup (msg : String)
  | unknownGroup (msg : String)
  | duplicateKey (msg : String)
  | invalidCheckType (msg : String)
  | typeError
  | enoent
deriving DecidableEq

/-! ### JavaScript `Map` semantics over association lists

`Map.set` overwrites in place (keeping the original insertion position) or
appends; `Map.get`/`has` find the entry; `Map.delete` removes it;
`new Map(pairs)` folds `set` over the pairs. -/

/-- `Map.has`. -/
def mapHas {κ α : Type} [DecidableEq κ] (k : κ) : List (κ × α) → Bool
  | [] => false
  | (k', _) :: t => if k' = k then true else mapHas k t

/-- `Map.get` (first matching entry). -/
def mapGet {κ α : Type} [DecidableEq κ] (k : κ) : List (κ × α) → Option α
  | [] => none
  | (k', v) :: t => if k' = k then some v else mapGet k t

/-- `Map.set`: overwrite in place keeping the insertion position, else append. -/
def mapSet {κ α : Type} [DecidableEq κ] (k : κ) (v : α) : List (κ × α) → List (κ × α)
  | [] => [(k, v)]
  | (k', v') :: t => if k' = k then (k, v) :: t else (k', v') :: mapSet k v t

/-- `Map.delete`: remove the (first) entry with the key. -/
def mapDelete {κ α : Type} [DecidableEq κ] (k : κ) : List (κ × α) → List (κ × α)
  | [] => []
  | (k', v') :: t => if k' = k then t else (k', v') :: mapDelete k t

/-- `new Map(pairs)`: fold `Map.set` over the pairs, starting empty. -/
def mapOfList {κ α : Type} [DecidableEq κ] (l : List (κ × α)) : List (κ × α) :=
  l.foldl (fun m kv => mapSet kv.1 kv.2 m) []

section MapLemmas

variable {κ α : Type} [DecidableEq κ]

theorem mapHas_mapSet (k k' : κ) (v : α) (m : List (κ × α)) :
    mapHas k (mapSet k' v m) = if k' = k then true else mapHas k m := by
  induction m with
  | nil => simp [mapSet, mapHas]
  | cons hd t ih =>
    obtain ⟨k0, v0⟩ := hd
    by_cases h0 : k0 = k'
    · subst h0
      simp only [mapSet, if_pos rfl, mapHas]
      by_cases hk : k0 = k
      · simp [hk]
      · simp [hk]
    · simp only [mapSet, if_neg h0, mapHas]
      by_cases hk : k0 = k
      · subst hk
        have : ¬ (k' = k0) := fun h => h0 h.symm
        simp [this]
      · simp [hk, ih]

theorem mapGet_mapSet (k k' : κ) (v : α) (m : List (κ × α)) :
    mapGet k (mapSet k' v m) = if k' = k then some v else mapGet k m := by
  induction m with
  | nil => simp [mapSet, mapGet]
  | cons hd t ih =>
    obtain ⟨k0, v0⟩ := hd
    by_cases h0 : k0 = k'
    · subst h0
      simp only [mapSet, if_pos rfl, mapGet]
      by_cases hk : k0 = k
      · simp [hk]
      · simp [hk]
    · simp only [mapSet, if_neg h0, mapGet]
      by_cases hk : k0 = k
      · subst hk
        have : ¬ (k' = k0) := fun h => h0 h.symm
        simp [this]
      · simp [hk, ih]

theorem mapHas_mapDelete (k k' : κ) (m : List (κ × α)) (h : k' ≠ k) :
    mapHas k (mapDelete k' m) = mapHas k m := by
  induction m with
  | nil => simp [mapDelete]
  | cons hd t ih =>
    obtain ⟨k0, v0⟩ := hd
    by_cases h0 : k0 = k'
    · subst h0
      simp only [mapDelete, if_pos rfl, mapHas]
      have : ¬ (k0 = k) := fun he => h (he ▸ rfl)
      simp [this]
    · simp only [mapDelete, if_neg h0, mapHas, ih]

theorem mapGet_some_mapHas (k : κ) (m : List (κ × α)) (v : α)
    (h : mapGet k m = some v) : mapHas k m = true := by
  induction m with
  | nil => simp [mapGet] at h
  | cons hd t ih =>
    obtain ⟨k0, v0⟩ := hd
    by_cases hk : k0 = k
    · simp [mapHas, hk]
    · simp only [mapGet, if_neg hk] at h
      simp [mapHas, hk, ih h]

theorem mapGet_some_mem (k : κ) (m : List (κ × α)) (v : α)
    (h : mapGet k m = some v) : (k, v) ∈ m := by
  induction m with
  | nil => simp [mapGet] at h
  | cons hd t ih =>
    obtain ⟨k0, v0⟩ := hd
    by_cases hk : k0 = k
    · subst hk
      simp only [mapGet, if_true, eq_self_iff_true, Option.some.injEq] at h
      subst h
      exact List.mem_cons_self _ _
    · simp only [mapGet, if_neg hk] at h
      exact List.mem_cons_of_mem _ (ih h)

theorem mem_mapSet (k : κ) (v : α) (m : List (κ × α)) (p : κ × α)
    (h : p ∈ mapSet k v m) : p = (k, v) ∨ p ∈ m := by
  induction m with
  | nil =>
    simp only [mapSet, List.mem_singleton] at h
    exact Or.inl h
  | cons hd t ih =>
    obtain ⟨k0, v0⟩ := hd
    by_cases h0 : k0 = k
    · subst h0
      simp only [mapSet, eq_self_iff_true, if_true, List.mem_cons] at h
      rcases h with h | h
      · exact Or.inl h
      · exact Or.inr (List.mem_cons_of_mem _ h)
    · simp only [mapSet, if_neg h0, List.mem_cons] at h
      rcases h with h | h
      · exact Or.inr (h ▸ List.mem_cons_self _ _)
      · rcases ih h with h' | h'
        · exact Or.inl h'
        · exact Or.inr (List.mem_cons_of_mem _ h')

theorem mem_mapDelete (k : κ) (m : List (κ × α)) (p : κ × α)
    (h : p ∈ mapDelete k m) : p ∈ m := by
  induction m with
  | nil => simp [mapDelete] at h
  | cons hd t ih =>
    obtain ⟨k0, v0⟩ := hd
    by_cases h0 : k0 = k
    · subst h0
      simp only [mapDelete, eq_self_iff_true, if_true] at h
      exact List.mem_cons_of_mem _ h
    · simp only [mapDelete, if_neg h0, List.mem_cons] at h
      rcases h with h | h
      · exact h ▸ List.mem_cons_self _ _
      · exact List.mem_cons_of_mem _ (ih h)

theorem mapSet_not_has (k : κ) (v : α) (m : List (κ × α)) :
    mapHas k m = false → mapSet k v m = m ++ [(k, v)] := by
  induction m with
  | nil => intro _; simp [mapSet]
  | cons hd t ih =>
    intro h
    obtain ⟨k0, v0⟩ := hd
    by_cases h0 : k0 = k
    · simp [mapHas, h0] at h
    · simp only [mapHas, if_neg h0] at h
      simp [mapSet, h0, ih h]

theorem mapHas_append (k : κ) (m m' : List (κ × α)) :
    mapHas k (m ++ m') = (mapHas k m || mapHas k m') := by
  induction m with
  | nil => simp [mapHas]
  | cons hd t ih =>
    obtain ⟨k0, v0⟩ := hd
    by_cases h0 : k0 = k
    · simp [mapHas, h0]
    · simp [mapHas, h0, ih]

/-- Rebuilding a map from an entries list with pairwise-distinct keys gives
back exactly that list. -/
theorem mapOfList_nodup (l : List (κ × α)) (h : (l.map Prod.fst).Nodup) :
    mapOfList l = l := by
  suffices H : ∀ (l : List (κ × α)) (acc : List (κ × α)),
      ((acc ++ l).map Prod.fst).Nodup →
      l.foldl (fun m kv => mapSet kv.1 kv.2 m) acc = acc ++ l by
    have := H l [] (by simpa using h)
    simpa using this
  intro l
  induction l with
  | nil => intro acc _; simp
  | cons hd t ih =>
    intro acc hnd
    obtain ⟨k0, v0⟩ := hd
    have hnotin : mapHas k0 acc = false := by
      by_contra hcon
      have hhas : mapHas k0 acc = true := by
        cases hh : mapHas k0 acc
        · exact absurd hh hcon
        · rfl
      -- from mapHas we get a value, hence membership of the key
      have hmem : k0 ∈ acc.map Prod.fst := by
        clear hcon hnd ih
        induction acc with
        | nil => simp [mapHas] at hhas
        | cons a t2 ih2 =>
          obtain ⟨ka, va⟩ := a
          by_cases hk : ka = k0
          · simp [hk]
          · simp only [mapHas, if_neg hk] at hhas
            simp [ih2 hhas]
      have hk0 : k0 ∈ ((acc ++ (k0, v0) :: t).map Prod.fst) := by
        simp
      rw [List.map_append] at hnd
      have := (List.nodup_append.mp hnd).2.2
      exact this hmem (by simp)
    have hstep : mapSet k0 v0 acc = acc ++ [(k0, v0)] := mapSet_not_has _ _ _ hnotin
    have hnd' : (((acc ++ [(k0, v0)]) ++ t).map Prod.fst).Nodup := by
      simpa using hnd
    have := ih (acc ++ [(k0, v0)]) hnd'
    simp only [List.foldl_cons, hstep]
    rw [this]
    simp

end MapLemmas

/-! ### CacheGroup (`src/cacheGroup.js`) -/

/-- The four views `getInternals` can return. -/
inductive Internals (α : Type) where
  | map (m : List (String × α))
  | keys (ks : List String)
  | values (vs : List α)
  | entries (es : List (String × α))
deriving DecidableEq

/-- `CacheGroup`: a named, insertion-ordered key/value store. -/
structure CacheGroup (α : Type) where
  groupName : String
  data : List (String × α)
deriving DecidableEq

/-- `new CacheGroup(groupName)`. -/
def mkCacheGroup {α : Type} (groupName : String) : CacheGroup α :=
  ⟨groupName, []⟩

namespace CacheGroup

variable {α : Type}

/-- `CacheGroup.getGroupName`. -/
def getGroupName (g : CacheGroup α) : String := g.groupName

/-- `CacheGroup.has`. -/
def has (g : CacheGroup α) (name : String) : Bool := mapHas name g.data

/-- `CacheGroup.get`: stored value, or `none` (JS `null`) if absent. -/
def get (g : CacheGroup α) (name : String) : Option α :=
  if g.has name then mapGet name g.data else none

/-- `CacheGroup.set`: insert or overwrite unconditionally. -/
def set (g : CacheGroup α) (name : String) (v : α) : CacheGroup α :=
  { g with data := mapSet name v g.data }

/-- The `DuplicateKeyError` message of `CacheGroup.add` (interpolated as in
the source, including its unbalanced quote). -/
def dupItemMsg (name groupName : String) : String :=
  "We already have a cache item called \x27" ++ name ++ "\x27 in group \x27" ++
    groupName ++ ". Maybe use \x27set\x27 instead?"

/-- `CacheGroup.add`: fail on a present key, else behave as `set`. -/
def add (g : CacheGroup α) (name : String) (v : α) : Except GfErr (CacheGroup α) :=
  if g.has name then .error (.duplicateKey (dupItemMsg name g.groupName))
  else .ok (g.set name v)

/-- `CacheGroup.del`: remove if present, no-op otherwise. -/
def del (g : CacheGroup α) (name : String) : CacheGroup α :=
  if g.has name then { g with data := mapDelete name g.data } else g

/-- `CacheGroup.getInternals` with its enumerated string format. -/
def getInternals (g : CacheGroup α) (format : String) : Internals α :=
  if format = "values" then .values (g.data.map Prod.snd)
  else if format = "entries" then .entries g.data
  else if format = "keys" then .keys (g.data.map Prod.fst)
  else .map g.data

/-- `CacheGroup.serialize`: the JSON array of `[key, value]` pairs written by
`save` (`Array.from(this.#data.entries())`). -/
def serialize (g : CacheGroup α) : List (String × α) := g.data

/-- `CacheGroup.load`: a missing file (`none`) resets to empty; otherwise the
parsed pair array is poured into a fresh `Map`. -/
def load (g : CacheGroup α) (file : Option (List (String × α))) : CacheGroup α :=
  match file with
  | none => { g with data := [] }
  | some l => { g with data := mapOfList l }

end CacheGroup

/-! ### Cache (`src/cache.js`)

The `#groups` registry is a plain JS object keyed by strings, so it keeps
insertion order exactly like a `Map`; we reuse the association-list model. -/

/-- `Cache`: a registry of named groups. -/
structure Cache (α : Type) where
  groups : List (String × CacheGroup α)
deriving DecidableEq

/-- `Cache.reset` (also the constructor): only the reserved group remains. -/
def cacheResetState {α : Type} : Cache α :=
  ⟨[("_", mkCacheGroup "_")]⟩

/-- Message of `addGroup` on the reserved name. -/
def addGroupReservedMsg (name : String) : String :=
  "The cache group called \x27" ++ name ++ "\x27 is reserved. You can\x27t create it."

/-- Message of `addGroup` on an existing name. -/
def dupGroupMsg (name : String) : String :=
  "A cache group called \x27" ++ name ++ "\x27 already exists."

/-- Message of `getGroup` on an unknown name. -/
def noGroupMsg (name : String) : String :=
  "There is no cache group called \x27" ++ name ++ "\x27."

/-- Message of `delGroup` on the reserved name. -/
def delGroupReservedMsg (name : String) : String :=
  "The cache group called \x27" ++ name ++ "\x27 is reserved. You can\x27t delete it."

/-- Message of the item-level `has` on an unknown group. -/
def cannotHasMsg (name group : String) : String :=
  "Cannot check if \x27" ++ name ++ "\x27 exists in group \x27" ++ group ++
    "\x27 because the group does not exist."

/-- Message of the item-level `get` on an unknown group. -/
def cannotGetMsg (name group : String) : String :=
  "Cannot get \x27" ++ name ++ "\x27 from group \x27" ++ group ++
    "\x27 because the group does not exist."

/-- Message of the item-level `add` on an unknown group. -/
def cannotAddMsg (name group : String) : String :=
  "Cannot add \x27" ++ name ++ "\x27 to group \x27" ++ group ++
    "\x27 because the group does not exist."

/-- Message of the item-level `set` on an unknown group. -/
def cannotSetMsg (name group : String) : String :=
  "Cannot set \x27" ++ name ++ "\x27 in group \x27" ++ group ++
    "\x27 because the group does not exist."

/-- Message of the item-level `del` on an unknown group. -/
def cannotDelMsg (name group : String) : String :=
  "Cannot delete \x27" ++ name ++ "\x27 from group \x27" ++ group ++
    "\x27 because the group does not exist."

namespace Cache

variable {α : Type}

/-- `Cache.hasGroup`. -/
def hasGroup (c : Cache α) (name : String) : Bool := mapHas name c.groups

/-- `Cache.addGroup`: reserved and duplicate names fail, otherwise an empty
group is registered under its own name. -/
def addGroup (c : Cache α) (name : String) : Except GfErr (Cache α) :=
  if name = "_" then .error (.reservedGroup (addGroupReservedMsg name))
  else if c.hasGroup name then .error (.duplicateGroup (dupGroupMsg name))
  else .ok ⟨mapSet name (mkCacheGroup name) c.groups⟩

/-- `Cache.getGroup`.  (After a positive `hasGroup` test the registry lookup
is always `some`; proceeding with JS `undefined` would be a `TypeError`.) -/
def getGroup (c : Cache α) (name : String) : Except GfErr (CacheGroup α) :=
  if c.hasGroup name = false then .error (.unknownGroup (noGroupMsg name))
  else
    match mapGet name c.groups with
    | some g => .ok g
    | none => .error .typeError

/-- `Cache.delGroup`: the reserved name fails, otherwise remove if present
(no-op if absent). -/
def delGroup (c : Cache α) (name : String) : Except GfErr (Cache α) :=
  if name = "_" then .error (.reservedGroup (delGroupReservedMsg name))
  else if c.hasGroup name then .ok ⟨mapDelete name c.groups⟩
  else .ok c

/-- Item-level `Cache.has`. -/
def hasItem (c : Cache α) (name group : String) : Except GfErr Bool :=
  if c.hasGroup group = false then .error (.unknownGroup (cannotHasMsg name group))
  else
    match c.getGroup group with
    | .ok g => .ok (g.has name)
    | .error e => .error e

/-- Item-level `Cache.get`. -/
def getItem (c : Cache α) (name group : String) : Except GfErr (Option α) :=
  if c.hasGroup group = false then .error (.unknownGroup (cannotGetMsg name group))
  else
    match c.getGroup group with
    | .ok g => .ok (g.get name)
    | .error e => .error e

/-- Item-level `Cache.add`: delegates to the group's `add`; the in-place
mutation of the group object updates the registry entry. -/
def addItem (c : Cache α) (name : String) (v : α) (group : String) :
    Except GfErr (Cache α) :=
  if c.hasGroup group = false then .error (.unknownGroup (cannotAddMsg name group))
  else
    match c.getGroup group with
    | .ok g =>
      match g.add name v with
      | .ok g2 => .ok ⟨mapSet group g2 c.groups⟩
      | .error e => .error e
    | .error e => .error e

/-- Item-level `Cache.set`. -/
def setItem (c : Cache α) (name : String) (v : α) (group : String) :
    Except GfErr (Cache α) :=
  if c.hasGroup group = false then .error (.unknownGroup (cannotSetMsg name group))
  else
    match c.getGroup group with
    | .ok g => .ok ⟨mapSet group (g.set name v) c.groups⟩
    | .error e => .error e

/-- Item-level `Cache.del`. -/
def delItem (c : Cache α) (name group : String) : Except GfErr (Cache α) :=
  if c.hasGroup group = false then .error (.unknownGroup (cannotDelMsg name group))
  else
    match c.getGroup group with
    | .ok g => .ok ⟨mapSet group (g.del name) c.groups⟩
    | .error e => .error e

end Cache

/-- The sequential `addGroup` loop of `Cache.load` when the directory is
missing: additions made before a failing `addGroup` stick (the JS loop
mutates in place and the thrown error aborts the rest). -/
def addGroupsSeq {α : Type} (c : Cache α) : List String → Cache α × Option GfErr
  | [] => (c, none)
  | g :: t =>
    match c.addGroup g with
    | .ok c2 => addGroupsSeq c2 t
    | .error e => (c, some e)

/-- The missing-directory branch of `Cache.load`: warn, and when group names
were supplied, `addGroup` each of them in order. -/
def cacheLoadMissingDir {α : Type} (c : Cache α) (gs : Option (List String)) :
    Cache α × Option GfErr :=
  match gs with
  | none => (c, none)
  | some l => addGroupsSeq c l

/-- One per-group step of the directory-exists branch of `Cache.load`:
create the group if absent, then pour the group's file into it. -/
def cacheLoadGroupFile {α : Type} (c : Cache α) (name : String)
    (file : Option (List (String × α))) : Cache α × Option GfErr :=
  match (if c.hasGroup name then .ok c else c.addGroup name :
      Except GfErr (Cache α)) with
  | .error e => (c, some e)
  | .ok c2 =>
    match mapGet name c2.groups with
    | some g => (⟨mapSet name (g.load file) c2.groups⟩, none)
    | none => (c2, some .typeError)

/-! ### Reachable `Cache` states

A state is reachable when it arises from the constructor by a sequence of
group, item and load operations.  A thrown error leaves the state as it was
at the throw point (all throws in `cache.js` happen before any mutation of
the step in question; the load loops keep the partial work done so far). -/

/-- The operations a caller can perform on a `Cache`. -/
inductive CacheOp (α : Type) where
  | reset
  | addGroup (name : String)
  | delGroup (name : String)
  | addItem (key : String) (v : α) (group : String)
  | setItem (key : String) (v : α) (group : String)
  | delItem (key : String) (group : String)
  | loadMissingDir (gs : Option (List String))
  | loadGroupFile (name : String) (file : Option (List (String × α)))

/-- Keep the old state when a step throws. -/
def stepOr {α : Type} (c : Cache α) (r : Except GfErr (Cache α)) : Cache α :=
  match r with
  | .ok c2 => c2
  | .error _ => c

/-- Apply one operation to a `Cache`. -/
def applyOp {α : Type} (c : Cache α) : CacheOp α → Cache α
  | .reset => cacheResetState
  | .addGroup n => stepOr c (c.addGroup n)
  | .delGroup n => stepOr c (c.delGroup n)
  | .addItem k v g => stepOr c (c.addItem k v g)
  | .setItem k v g => stepOr c (c.setItem k v g)
  | .delItem k g => stepOr c (c.delItem k g)
  | .loadMissingDir gs => (cacheLoadMissingDir c gs).1
  | .loadGroupFile n f => (cacheLoadGroupFile c n f).1

/-- Run a sequence of operations from a given state. -/
def runOps {α : Type} (c : Cache α) (ops : List (CacheOp α)) : Cache α :=
  ops.foldl applyOp c

section CacheInvariants

variable {α : Type}

/-- The reserved group survives `mapSet` with any key. -/
theorem hasGroup_mapSet (k : String) (g : CacheGroup α)
    (m : List (String × CacheGroup α)) (h : mapHas "_" m = true) :
    mapHas "_" (mapSet k g m) = true := by
  rw [mapHas_mapSet]
  by_cases hk : k = "_"
  · simp [hk]
  · simp [hk, h]

theorem addGroupsSeq_preserves_underscore (gs : List String) (c : Cache α)
    (h : c.hasGroup "_" = true) : (addGroupsSeq c gs).1.hasGroup "_" = true := by
  induction gs generalizing c with
  | nil => exact h
  | cons g t ih =>
    simp only [addGroupsSeq]
    cases hstep : c.addGroup g with
    | ok c2 =>
      apply ih
      simp only [Cache.addGroup] at hstep
      by_cases h1 : g = "_"
      · simp [h1] at hstep
      · simp only [if_neg h1] at hstep
        by_cases h2 : c.hasGroup g
        · simp [h2] at hstep
        · simp only [h2, if_false, Bool.false_eq_true] at hstep
          cases hstep
          exact hasGroup_mapSet _ _ _ h
    | error e => exact h

/-- Every operation preserves the presence of the reserved group. -/
theorem applyOp_preserves_underscore (c : Cache α) (op : CacheOp α)
    (h : c.hasGroup "_" = true) : (applyOp c op).hasGroup "_" = true := by
  cases op with
  | reset =>
    simp [applyOp, cacheResetState, Cache.hasGroup, mapHas]
  | addGroup n =>
    simp only [applyOp, stepOr]
    cases hstep : c.addGroup n with
    | error e => exact h
    | ok c2 =>
      simp only [Cache.addGroup] at hstep
      by_cases h1 : n = "_"
      · simp [h1] at hstep
      · simp only [if_neg h1] at hstep
        by_cases h2 : c.hasGroup n
        · simp [h2] at hstep
        · simp only [h2, if_false, Bool.false_eq_true] at hstep
          cases hstep
          exact hasGroup_mapSet _ _ _ h
  | delGroup n =>
    simp only [applyOp, stepOr]
    cases hstep : c.delGroup n with
    | error e => exact h
    | ok c2 =>
      simp only [Cache.delGroup] at hstep
      by_cases h1 : n = "_"
      · simp [h1] at hstep
      · simp only [if_neg h1] at hstep
        by_cases h2 : c.hasGroup n
        · simp only [h2, if_true] at hstep
          cases hstep
          show mapHas "_" (mapDelete n c.groups) = true
          rw [mapHas_mapDelete _ _ _ h1]
          exact h
        · simp only [h2, Bool.false_eq_true, if_false] at hstep
          cases hstep
          exact h
  | addItem k v g =>
    simp only [applyOp, stepOr]
    cases hstep : c.addItem k v g with
    | error e => exact h
    | ok c2 =>
      simp only [Cache.addItem] at hstep
      by_cases h1 : c.hasGroup g = false
      · simp [h1] at hstep
      · simp only [if_neg h1] at hstep
        cases hg : c.getGroup g with
        | error e => rw [hg] at hstep; exact Except.noConfusion hstep
        | ok grp =>
          rw [hg] at hstep
          dsimp only at hstep
          cases ha : grp.add k v with
          | error e => rw [ha] at hstep; exact Except.noConfusion hstep
          | ok g2 =>
            rw [ha] at hstep
            dsimp only at hstep
            injection hstep with h2
            subst h2
            show mapHas "_" (mapSet g g2 c.groups) = true
            exact hasGroup_mapSet _ _ _ h
  | setItem k v g =>
    simp only [applyOp, stepOr]
    cases hstep : c.setItem k v g with
    | error e => exact h
    | ok c2 =>
      simp only [Cache.setItem] at hstep
      by_cases h1 : c.hasGroup g = false
      · simp [h1] at hstep
      · simp only [if_neg h1] at hstep
        cases hg : c.getGroup g with
        | error e => rw [hg] at hstep; exact Except.noConfusion hstep
        | ok grp =>
          rw [hg] at hstep
          dsimp only at hstep
          injection hstep with h2
          subst h2
          show mapHas "_" (mapSet g (grp.set k v) c.groups) = true
          exact hasGroup_mapSet _ _ _ h
  | delItem k g =>
    simp only [applyOp, stepOr]
    cases hstep : c.delItem k g with
    | error e => exact h
    | ok c2 =>
      simp only [Cache.delItem] at hstep
      by_cases h1 : c.hasGroup g = false
      · simp [h1] at hstep
      · simp only [if_neg h1] at hstep
        cases hg : c.getGroup g with
        | error e => rw [hg] at hstep; exact Except.noConfusion hstep
        | ok grp =>
          rw [hg] at hstep
          dsimp only at hstep
          injection hstep with h2
          subst h2
          show mapHas "_" (mapSet g (grp.del k) c.groups) = true
          exact hasGroup_mapSet _ _ _ h
  | loadMissingDir gs =>
    cases gs with
    | none => exact h
    | some l =>
      simp only [applyOp, cacheLoadMissingDir]
      exact addGroupsSeq_preserves_underscore _ _ h
  | loadGroupFile n f =>
    simp only [applyOp, cacheLoadGroupFile]
    cases hstep : (if c.hasGroup n then .ok c else c.addGroup n :
        Except GfErr (Cache α)) with
    | error e => exact h
    | ok c2 =>
      have hc2 : c2.hasGroup "_" = true := by
        by_cases hn : c.hasGroup n
        · simp only [hn, if_true] at hstep; cases hstep; exact h
        · simp only [hn, Bool.false_eq_true, if_false] at hstep
          simp only [Cache.addGroup] at hstep
          by_cases h1 : n = "_"
          · simp [h1] at hstep
          · simp only [if_neg h1] at hstep
            by_cases h2 : c.hasGroup n
            · simp [h2] at hstep
            · simp only [h2, Bool.false_eq_true, if_false] at hstep
              cases hstep
              exact hasGroup_mapSet _ _ _ h
      dsimp only
      cases hg : mapGet n c2.groups with
      | some g =>
        show mapHas "_" (mapSet n (g.load f) c2.groups) = true
        exact hasGroup_mapSet _ _ _ hc2
      | none => exact hc2

theorem runOps_preserves_underscore (ops : List (CacheOp α)) (c : Cache α)
    (h : c.hasGroup "_" = true) : (runOps c ops).hasGroup "_" = true := by
  induction ops generalizing c with
  | nil => exact h
  | cons op t ih => exact ih _ (applyOp_preserves_underscore c op h)

/-- The registry is name-consistent: each group is stored under the name it
was constructed with. -/
def nameConsistent (c : Cache α) : Prop :=
  ∀ p ∈ c.groups, (p.2).groupName = p.1

theorem nameConsistent_mapSet (c : Cache α) (k : String) (g : CacheGroup α)
    (hc : nameConsistent c) (hg : g.groupName = k) :
    nameConsistent (⟨mapSet k g c.groups⟩ : Cache α) := by
  intro p hp
  rcases mem_mapSet _ _ _ _ hp with h | h
  · subst h; exact hg
  · exact hc p h

theorem nameConsistent_reset : nameConsistent (cacheResetState (α := α)) := by
  intro p hp
  simp only [cacheResetState, List.mem_singleton] at hp
  subst hp
  rfl

theorem getGroup_ok_name (c : Cache α) (n : String) (g : CacheGroup α)
    (hc : nameConsistent c) (h : c.getGroup n = .ok g) : g.groupName = n := by
  simp only [Cache.getGroup] at h
  by_cases h1 : c.hasGroup n = false
  · simp [h1] at h
  · simp only [if_neg h1] at h
    cases hm : mapGet n c.groups with
    | some g0 =>
      rw [hm] at h
      dsimp only at h
      injection h with h2
      subst h2
      exact hc _ (mapGet_some_mem _ _ _ hm)
    | none => rw [hm] at h; exact Except.noConfusion h

theorem addGroupsSeq_nameConsistent (gs : List String) (c : Cache α)
    (hc : nameConsistent c) : nameConsistent (addGroupsSeq c gs).1 := by
  induction gs generalizing c with
  | nil => exact hc
  | cons g t ih =>
    simp only [addGroupsSeq]
    cases hstep : c.addGroup g with
    | error e => exact hc
    | ok c2 =>
      apply ih
      simp only [Cache.addGroup] at hstep
      by_cases h1 : g = "_"
      · simp [h1] at hstep
      · simp only [if_neg h1] at hstep
        by_cases h2 : c.hasGroup g
        · simp [h2] at hstep
        · simp only [h2, if_false, Bool.false_eq_true] at hstep
          injection hstep with h3
          subst h3
          exact nameConsistent_mapSet _ _ _ hc rfl

/-- Every operation preserves name-consistency of the registry. -/
theorem applyOp_nameConsistent (c : Cache α) (op : CacheOp α)
    (hc : nameConsistent c) : nameConsistent (applyOp c op) := by
  cases op with
  | reset => exact nameConsistent_reset
  | addGroup n =>
    simp only [applyOp, stepOr]
    cases hstep : c.addGroup n with
    | error e => exact hc
    | ok c2 =>
      simp only [Cache.addGroup] at hstep
      by_cases h1 : n = "_"
      · simp [h1] at hstep
      · simp only [if_neg h1] at hstep
        by_cases h2 : c.hasGroup n
        · simp [h2] at hstep
        · simp only [h2, if_false, Bool.false_eq_true] at hstep
          injection hstep with h3
          subst h3
          exact nameConsistent_mapSet _ _ _ hc rfl
  | delGroup n =>
    simp only [applyOp, stepOr]
    cases hstep : c.delGroup n with
    | error e => exact hc
    | ok c2 =>
      simp only [Cache.delGroup] at hstep
      by_cases h1 : n = "_"
      · simp [h1] at hstep
      · simp only [if_neg h1] at hstep
        by_cases h2 : c.hasGroup n
        · simp only [h2, if_true] at hstep
          injection hstep with h3
          subst h3
          intro p hp
          exact hc p (mem_mapDelete _ _ _ hp)
        · simp only [h2, Bool.false_eq_true, if_false] at hstep
          injection hstep with h3
          subst h3
          exact hc
  | addItem k v g =>
    simp only [applyOp, stepOr]
    cases hstep : c.addItem k v g with
    | error e => exact hc
    | ok c2 =>
      simp only [Cache.addItem] at hstep
      by_cases h1 : c.hasGroup g = false
      · simp [h1] at hstep
      · simp only [if_neg h1] at hstep
        cases hg : c.getGroup g with
        | error e => rw [hg] at hstep; exact Except.noConfusion hstep
        | ok grp =>
          rw [hg] at hstep
          dsimp only at hstep
          cases ha : grp.add k v with
          | error e => rw [ha] at hstep; exact Except.noConfusion hstep
          | ok g2 =>
            rw [ha] at hstep
            dsimp only at hstep
            injection hstep with h2
            subst h2
            have hname : grp.groupName = g := getGroup_ok_name _ _ _ hc hg
            have hg2 : g2.groupName = g := by
              simp only [CacheGroup.add] at ha
              by_cases hk : grp.has k
              · simp [hk] at ha
              · simp only [hk, Bool.false_eq_true, if_false] at ha
                injection ha with h4
                subst h4
                exact hname
            exact nameConsistent_mapSet _ _ _ hc hg2
  | setItem k v g =>
    simp only [applyOp, stepOr]
    cases hstep : c.setItem k v g with
    | error e => exact hc
    | ok c2 =>
      simp only [Cache.setItem] at hstep
      by_cases h1 : c.hasGroup g = false
      · simp [h1] at hstep
      · simp only [if_neg h1] at hstep
        cases hg : c.getGroup g with
        | error e => rw [hg] at hstep; exact Except.noConfusion hstep
        | ok grp =>
          rw [hg] at hstep
          dsimp only at hstep
          injection hstep with h2
          subst h2
          have hname : grp.groupName = g := getGroup_ok_name _ _ _ hc hg
          have hset : (grp.set k v).groupName = g := hname
          exact nameConsistent_mapSet _ _ _ hc hset
  | delItem k g =>
    simp only [applyOp, stepOr]
    cases hstep : c.delItem k g with
    | error e => exact hc
    | ok c2 =>
      simp only [Cache.delItem] at hstep
      by_cases h1 : c.hasGroup g = false
      · simp [h1] at hstep
      · simp only [if_neg h1] at hstep
        cases hg : c.getGroup g with
        | error e => rw [hg] at hstep; exact Except.noConfusion hstep
        | ok grp =>
          rw [hg] at hstep
          dsimp only at hstep
          injection hstep with h2
          subst h2
          have hname : grp.groupName = g := getGroup_ok_name _ _ _ hc hg
          have : (grp.del k).groupName = g := by
            simp only [CacheGroup.del]
            by_cases hk : grp.has k
            · simp only [hk, if_true]; exact hname
            · simp only [hk, Bool.false_eq_true, if_false]; exact hname
          exact nameConsistent_mapSet _ _ _ hc this
  | loadMissingDir gs =>
    cases gs with
    | none => exact hc
    | some l =>
      simp only [applyOp, cacheLoadMissingDir]
      exact addGroupsSeq_nameConsistent _ _ hc
  | loadGroupFile n f =>
    simp only [applyOp, cacheLoadGroupFile]
    cases hstep : (if c.hasGroup n then .ok c else c.addGroup n :
        Except GfErr (Cache α)) with
    | error e => exact hc
    | ok c2 =>
      have hc2 : nameConsistent c2 := by
        by_cases hn : c.hasGroup n
        · simp only [hn, if_true] at hstep
          injection hstep with h3
          subst h3
          exact hc
        · simp only [hn, Bool.false_eq_true, if_false] at hstep
          simp only [Cache.addGroup] at hstep
          by_cases h1 : n = "_"
          · simp [h1] at hstep
          · simp only [if_neg h1] at hstep
            by_cases h2 : c.hasGroup n
            · simp [h2] at hstep
            · simp only [h2, Bool.false_eq_true, if_false] at hstep
              injection hstep with h3
              subst h3
              exact nameConsistent_mapSet _ _ _ hc rfl
      dsimp only
      cases hg : mapGet n c2.groups with
      | some g =>
        have hname : g.groupName = n := hc2 _ (mapGet_some_mem _ _ _ hg)
        have hload : (g.load f).groupName = n := by
          cases f with
          | none => exact hname
          | some l => exact hname
        exact nameConsistent_mapSet _ _ _ hc2 hload
      | none => exact hc2

theorem runOps_nameConsistent (ops : List (CacheOp α)) (c : Cache α)
    (hc : nameConsistent c) : nameConsistent (runOps c ops) := by
  induction ops generalizing c with
  | nil => exact hc
  | cons op t ih => exact ih _ (applyOp_nameConsistent c op hc)

end CacheInvariants

/-! ### Path helpers (`src/gfPath.js`) and JS string primitives -/

/-- JS `str.startsWith(pre)`. -/
def jsStartsWith (s pre : String) : Bool := pre.data.isPrefixOf s.data

/-- JS `str.replace(pat, '')` with a string pattern: remove the first
occurrence of `pat` (anywhere in the string, not only as a prefix); an empty
pattern leaves the string unchanged. -/
def removeFirstL (pat : List Char) : List Char → List Char
  | [] => []
  | c :: t => if pat.isPrefixOf (c :: t) then (c :: t).drop pat.length
              else c :: removeFirstL pat t

/-- JS `s.replace(pat, '')`. -/
def jsReplaceOnce (s pat : String) : String := ⟨removeFirstL pat.data s.data⟩

/-- `GfPath.addLeadingSlash`. -/
def addLeadingSlash (str : String) : String :=
  if str = "/" ∨ str = "" then "/"
  else if jsStartsWith str "/" = false then "/" ++ str
  else str

/-- Does `pat` occur as a contiguous substring? -/
def occursInL (pat : List Char) : List Char → Bool
  | [] => pat.isEmpty
  | c :: t => pat.isPrefixOf (c :: t) || occursInL pat t

/-- Does `pat` occur as a contiguous substring of `s`? -/
def occursIn (pat s : String) : Bool := occursInL pat.data s.data

theorem removeFirstL_of_not_occurs (pat l : List Char)
    (h : occursInL pat l = false) : removeFirstL pat l = l := by
  induction l with
  | nil => rfl
  | cons c t ih =>
    simp only [occursInL, Bool.or_eq_false_iff] at h
    simp only [removeFirstL, h.1, Bool.false_eq_true, if_false]
    rw [ih h.2]

theorem removeFirstL_append_self (pat rest : List Char) :
    removeFirstL pat (pat ++ rest) = rest := by
  cases hp : pat with
  | nil =>
    simp only [List.nil_append]
    cases rest with
    | nil => rfl
    | cons c t =>
      simp only [removeFirstL, List.isPrefixOf]
      simp
  | cons p ps =>
    simp only [List.cons_append, removeFirstL]
    have hpre : (p :: ps).isPrefixOf (p :: (ps ++ rest)) = true := by
      simp only [List.isPrefixOf, beq_self_eq_true, Bool.true_and]
      clear hp
      induction ps generalizing rest with
      | nil => simp [List.isPrefixOf]
      | cons q qs ih =>
        simp only [List.cons_append, List.isPrefixOf, beq_self_eq_true,
          Bool.true_and]
        exact ih rest
    simp only [List.append_eq]
    rw [hpre]
    simp only [if_true, List.length_cons, List.drop_succ_cons]
    have : ps.length ≤ (ps ++ rest).length := by simp
    simp [List.drop_append_eq_append_drop, List.drop_length]

theorem addLeadingSlash_startsWith (str : String) :
    jsStartsWith (addLeadingSlash str) "/" = true := by
  simp only [addLeadingSlash]
  by_cases h1 : str = "/" ∨ str = ""
  · simp only [h1, if_true]
    rfl
  · simp only [h1, if_false]
    by_cases h2 : jsStartsWith str "/" = false
    · simp only [h2, if_true]
      show ("/".data.isPrefixOf (("/" ++ str).data)) = true
      have : ("/" ++ str).data = '/' :: str.data := by
        simp [String.data_append]
      rw [this]
      simp [List.isPrefixOf]
    · have h3 : jsStartsWith str "/" = true := by
        cases h4 : jsStartsWith str "/"
        · exact absurd h4 h2
        · rfl
      simp only [h3, Bool.true_eq_false, if_false]

theorem addLeadingSlash_of_startsWith (str : String)
    (h : jsStartsWith str "/" = true) : addLeadingSlash str = str := by
  simp only [addLeadingSlash]
  by_cases h1 : str = "/" ∨ str = ""
  · rcases h1 with h1 | h1
    · simp [h1]
    · subst h1
      simp [jsStartsWith, List.isPrefixOf] at h
  · simp only [h1, if_false, h, Bool.true_eq_false, if_false]

/-! ### FileCache (`src/fileCache.js`) -/

/-- The stored change-detection value.  JS stores plain objects
`{mtimeMs, size}` (stats modes) or `{md5, size}` (md5 mode); reading an
absent property yields `undefined`, modelled by `none`. -/
structure Fingerprint where
  mtimeMs : Option Int
  md5 : Option String
  size : Nat
deriving DecidableEq

/-- A `{mtimeMs, size}` fingerprint. -/
def statsFp (m : Int) (s : Nat) : Fingerprint := ⟨some m, none, s⟩

/-- A `{md5, size}` fingerprint. -/
def md5Fp (h : String) (s : Nat) : Fingerprint := ⟨none, some h, s⟩

/-- What `fs.statSync` and the md5 hash of the file's current content give
for the checked file (the file exists: a missing file makes `statSync`
throw and the claims only concern existing files). -/
structure FileObs where
  mtimeMs : Int
  size : Nat
  md5 : String
deriving DecidableEq

/-- JS `current.mtimeMs > cached.mtimeMs`: comparing a number against
`undefined` is `false`. -/
def jsGtNum (a : Int) (b : Option Int) : Bool :=
  match b with
  | some bv => a > bv
  | none => false

/-- JS `md5 !== cached.md5`: a string is always `!==` `undefined`. -/
def jsNeqStr (a : String) (b : Option String) : Bool :=
  match b with
  | some bv => a != bv
  | none => true

/-- `FileCache`: fingerprints keyed by normalized site-relative paths. -/
structure FileCache where
  cachePath : String
  sitePath : String
  checkType : String
  data : List (String × Fingerprint)
deriving DecidableEq

/-- The `InvalidCheckTypeError` message. -/
def invalidCheckTypeMsg (t : String) : String :=
  "Invalid cache check type " ++ t ++ "."

/-- The `DuplicateKeyError` message of `FileCache.add`. -/
def fcDupMsg (name : String) : String :=
  "We already have a cache item called \x27" ++ name ++
    "\x27. Maybe use \x27set\x27 instead?"

namespace FileCache

/-- The key normalization every `FileCache` method applies first:
`GfPath.addLeadingSlash(name.replace(this.sitePath, ''))`. -/
def normalize (fc : FileCache) (name : String) : String :=
  addLeadingSlash (jsReplaceOnce name fc.sitePath)

/-- `FileCache.has` (normalizes its argument itself). -/
def has (fc : FileCache) (name : String) : Bool :=
  mapHas (fc.normalize name) fc.data

/-- `FileCache.get`: normalizes, re-checks `has` (which normalizes again),
then reads the map at the once-normalized key. -/
def get (fc : FileCache) (name : String) : Option Fingerprint :=
  let n := fc.normalize name
  if fc.has n then mapGet n fc.data else none

/-- `FileCache.set`. -/
def set (fc : FileCache) (name : String) (v : Fingerprint) : FileCache :=
  { fc with data := mapSet (fc.normalize name) v fc.data }

/-- `FileCache.add`. -/
def add (fc : FileCache) (name : String) (v : Fingerprint) :
    Except GfErr FileCache :=
  let n := fc.normalize name
  if fc.has n then .error (.duplicateKey (fcDupMsg n))
  else .ok (fc.set n v)

/-- `FileCache.del`. -/
def del (fc : FileCache) (name : String) : FileCache :=
  let n := fc.normalize name
  if fc.has n then { fc with data := mapDelete n fc.data } else fc

/-- `FileCache.check`: the staleness test.  `obs` is what stat/md5 observe
on disk right now.  Follows `fileCache.js` line by line, including the
re-normalization performed by the `has`/`get`/`add`/`set` it delegates to,
and the `TypeError` a `null` cached record would produce. -/
def check (fc : FileCache) (name0 : String) (obs : FileObs) (autoup : Bool) :
    Except GfErr (Bool × FileCache) :=
  let name := fc.normalize name0
  if fc.checkType = "stats" then
    if fc.has name = false then
      if autoup then
        match fc.add name (statsFp obs.mtimeMs obs.size) with
        | .ok fc2 => .ok (true, fc2)
        | .error e => .error e
      else .ok (true, fc)
    else
      match fc.get name with
      | none => .error .typeError
      | some cached =>
        if jsGtNum obs.mtimeMs cached.mtimeMs || obs.size != cached.size then
          .ok (true, if autoup then fc.set name (statsFp obs.mtimeMs obs.size) else fc)
        else .ok (false, fc)
  else if fc.checkType = "statsdata" then
    if fc.has name = false then .ok (true, fc)
    else
      match fc.get name with
      | none => .error .typeError
      | some cached =>
        if jsGtNum obs.mtimeMs cached.mtimeMs || obs.size != cached.size then
          .ok (true, fc)
        else .ok (false, fc)
  else if fc.checkType = "md5" then
    if fc.has name = false then
      match fc.add name (md5Fp obs.md5 obs.size) with
      | .ok fc2 => .ok (true, fc2)
      | .error e => .error e
    else
      match fc.get name with
      | none => .error .typeError
      | some cached =>
        if jsNeqStr obs.md5 cached.md5 || obs.size != cached.size then
          .ok (true, fc.set name (md5Fp obs.md5 obs.size))
        else .ok (false, fc)
  else .error (.invalidCheckType (invalidCheckTypeMsg fc.checkType))

end FileCache

/-! ### Filesystem model for the two `save` implementations

Paths are segment lists; a write stores the serialized pair array (the JSON
text) at the file path, fully overwriting. -/

/-- A directory path as a list of segments. -/
abbrev DirPath := List String

/-- The directories and files that exist on disk.  File contents are the
parsed JSON pair arrays both `save` implementations write. -/
structure FSState (α : Type) where
  dirs : List DirPath
  files : List (DirPath × List (String × α))
deriving DecidableEq

/-- `path.dirname`. -/
def dirnameSegs (p : DirPath) : DirPath := p.dropLast

/-- `fs.existsSync` on a directory (the empty path is the always-present
working-directory root). -/
def dirExists {α : Type} (fs : FSState α) (d : DirPath) : Bool :=
  d.isEmpty || fs.dirs.contains d

/-- `fs.mkdirSync(d, {recursive: true})` (via `FsUtils.mkDirRecurse`):
creates the directory and all missing ancestors. -/
def mkDirRecursiveFS {α : Type} (fs : FSState α) (d : DirPath) : FSState α :=
  { fs with dirs := fs.dirs ++ (List.range d.length).map (fun i => d.take (i + 1)) }

/-- `fs.mkdirSync(d, {recurse: true})`: the option key is not `recursive`,
so Node treats it as unset and creates a single level, throwing `ENOENT`
when the parent is missing. -/
def mkDirPlainFS {α : Type} (fs : FSState α) (d : DirPath) :
    Except GfErr (FSState α) :=
  if dirExists fs (dirnameSegs d) then .ok { fs with dirs := fs.dirs ++ [d] }
  else .error .enoent

/-- `fs.writeFileSync`: full overwrite. -/
def writeFileFS {α : Type} (fs : FSState α) (p : DirPath)
    (content : List (String × α)) : FSState α :=
  { fs with files := mapSet p content fs.files }

/-- `CacheGroup.save(filePath)`: ensure the parent directory exists via
`FsUtils.mkDirRecurse`, then write the serialized entries. -/
def cacheGroupSaveFS {α : Type} (entries : List (String × α)) (fp : DirPath)
    (fs : FSState α) : FSState α :=
  let fs2 := if dirExists fs (dirnameSegs fp) then fs
             else mkDirRecursiveFS fs (dirnameSegs fp)
  writeFileFS fs2 fp entries

/-- `FileCache.save()`: when the parent directory is missing it calls
`fs.mkdirSync(dir, {recurse: true})` — a non-recursive mkdir — and only
writes if that call did not throw. -/
def fileCacheSaveFS {α : Type} (entries : List (String × α)) (fp : DirPath)
    (fs : FSState α) : Except GfErr (FSState α) :=
  if dirExists fs (dirnameSegs fp) = false then
    match mkDirPlainFS fs (dirnameSegs fp) with
    | .ok fs2 => .ok (writeFileFS fs2 fp entries)
    | .error e => .error e
  else .ok (writeFileFS fs fp entries)

/-! ## The claims -/

/-- C1: in every reachable state of a `Cache` (from construction through any
sequence of group, item and load operations) the reserved group `"_"`
exists; `addGroup("_")` and `delGroup("_")` always fail with the reserved
group error, and the failing call leaves the registry unchanged. -/
theorem C1_reserved_group {α : Type} (ops : List (CacheOp α)) :
    (runOps cacheResetState ops).hasGroup "_" = true ∧
    (runOps cacheResetState ops).addGroup "_" =
      .error (.reservedGroup (addGroupReservedMsg "_")) ∧
    (runOps cacheResetState ops).delGroup "_" =
      .error (.reservedGroup (delGroupReservedMsg "_")) ∧
    applyOp (runOps cacheResetState ops) (.addGroup "_") =
      runOps cacheResetState ops ∧
    applyOp (runOps cacheResetState ops) (.delGroup "_") =
      runOps cacheResetState ops := by
  have h0 : (cacheResetState (α := α)).hasGroup "_" = true := by
    simp [Cache.hasGroup, cacheResetState, mapHas]
  refine ⟨runOps_preserves_underscore ops _ h0, ?_, ?_, ?_, ?_⟩
  · simp [Cache.addGroup]
  · simp [Cache.delGroup]
  · simp [applyOp, stepOr, Cache.addGroup]
  · simp [applyOp, stepOr, Cache.delGroup]

/-- C10: in every reachable `Cache` state, a group retrieved under a
registered name carries that very name: the registry key always matches the
immutable name the group was constructed with. -/
theorem C10_registry_names_match {α : Type} (ops : List (CacheOp α))
    (n : String) (g : CacheGroup α)
    (h : (runOps cacheResetState ops).getGroup n = .ok g) :
    g.getGroupName = n :=
  getGroup_ok_name _ _ _ (runOps_nameConsistent ops _ nameConsistent_reset) h

/-- Witness for C10 at a concrete operation sequence. -/
theorem C10_registry_names_match_witness :
    (runOps (cacheResetState (α := Nat)) [CacheOp.addGroup "pages"]).getGroup
        "pages" = .ok (mkCacheGroup "pages") ∧
    (mkCacheGroup "pages" : CacheGroup Nat).getGroupName = "pages" :=
  ⟨rfl, C10_registry_names_match [CacheOp.addGroup "pages"] "pages" _ rfl⟩

/-- C2: saving a group and loading the saved pair array into a fresh group
reproduces exactly the same entries, and the ordered `keys`/`values`/
`entries` views agree with the original in insertion order.  (A real
group's `Map` keys are pairwise distinct, which is the `Nodup`
hypothesis.) -/
theorem C2_save_load_round_trip {α : Type} (g : CacheGroup α) (name2 : String)
    (h : (g.data.map Prod.fst).Nodup) :
    ((mkCacheGroup name2 : CacheGroup α).load (some g.serialize)).data =
      g.data ∧
    ((mkCacheGroup name2 : CacheGroup α).load (some g.serialize)).getInternals
        "keys" = g.getInternals "keys" ∧
    ((mkCacheGroup name2 : CacheGroup α).load (some g.serialize)).getInternals
        "values" = g.getInternals "values" ∧
    ((mkCacheGroup name2 : CacheGroup α).load (some g.serialize)).getInternals
        "entries" = g.getInternals "entries" := by
  have hdata :
      ((mkCacheGroup name2 : CacheGroup α).load (some g.serialize)).data =
        g.data := by
    simp only [CacheGroup.load, CacheGroup.serialize, mkCacheGroup]
    exact mapOfList_nodup _ h
  have hk : ∀ (x : CacheGroup α),
      x.getInternals "keys" = .keys (x.data.map Prod.fst) := fun x => rfl
  have hv : ∀ (x : CacheGroup α),
      x.getInternals "values" = .values (x.data.map Prod.snd) := fun x => rfl
  have he : ∀ (x : CacheGroup α),
      x.getInternals "entries" = .entries x.data := fun x => rfl
  refine ⟨hdata, ?_, ?_, ?_⟩
  · rw [hk, hk, hdata]
  · rw [hv, hv, hdata]
  · rw [he, he, hdata]

/-- Witness for C2 at a concrete two-entry group. -/
theorem C2_save_load_round_trip_witness :
    (((⟨"pages", [("a", 1), ("b", 2)]⟩ : CacheGroup Nat).data.map
        Prod.fst).Nodup) ∧
    ((mkCacheGroup "fresh" : CacheGroup Nat).load
        (some (⟨"pages", [("a", 1), ("b", 2)]⟩ : CacheGroup Nat).serialize)).data =
      (⟨"pages", [("a", 1), ("b", 2)]⟩ : CacheGroup Nat).data :=
  ⟨by decide,
    (C2_save_load_round_trip (⟨"pages", [("a", 1), ("b", 2)]⟩ : CacheGroup Nat)
      "fresh" (by decide)).1⟩

/-- C3: on a fresh key `add` then `get` returns the value; a second `add` of
the same key fails with the duplicate-key error whose message names the
group, and the rejected call mutates nothing, so `get` still returns the
original value. -/
theorem C3_add_then_duplicate {α : Type} (g : CacheGroup α) (k : String)
    (v v2 : α) (h : g.has k = false) :
    g.add k v = .ok (g.set k v) ∧
    (g.set k v).get k = some v ∧
    (g.set k v).add k v2 =
      .error (.duplicateKey (CacheGroup.dupItemMsg k g.groupName)) ∧
    ∃ pre post,
      CacheGroup.dupItemMsg k g.groupName = pre ++ g.groupName ++ post := by
  have hmh : mapHas k (mapSet k v g.data) = true := by
    simp [mapHas_mapSet]
  have hhas : (g.set k v).has k = true := hmh
  refine ⟨?_, ?_, ?_, ?_⟩
  · simp [CacheGroup.add, h]
  · simp [CacheGroup.get, CacheGroup.set, CacheGroup.has, hmh, mapGet_mapSet]
  · simp only [CacheGroup.add, hhas, if_true]
    rfl
  · exact ⟨"We already have a cache item called \x27" ++ k ++
      "\x27 in group \x27", ". Maybe use \x27set\x27 instead?", rfl⟩

/-- C9: whenever `FileCache.check` returns `false`, the fingerprint table is
left completely unchanged, for every state, mode, path and `autoUpdate`
value. -/
theorem C9_check_false_frame (fc : FileCache) (name0 : String) (obs : FileObs)
    (autoup : Bool) (fc' : FileCache)
    (h : fc.check name0 obs autoup = .ok (false, fc')) : fc' = fc := by
  simp only [FileCache.check] at h
  split at h
  · -- stats
    split at h
    · split at h
      · split at h
        · simp at h
        · simp at h
      · simp at h
    · split at h
      · simp at h
      · split at h
        · simp at h
        · simp at h
          exact h.symm
  · split at h
    · -- statsdata
      split at h
      · simp at h
      · split at h
        · simp at h
        · split at h
          · simp at h
          · simp at h
            exact h.symm
    · split at h
      · -- md5
        split at h
        · split at h
          · simp at h
          · simp at h
        · split at h
          · simp at h
          · split at h
            · simp at h
            · simp at h
              exact h.symm
      · simp at h

/-- Witness for C9 at a concrete unchanged file. -/
theorem C9_check_false_frame_witness :
    FileCache.check ⟨"cp", "", "stats", [("/a", statsFp 5 5)]⟩ "/a"
        ⟨5, 5, "h"⟩ true =
      .ok (false, ⟨"cp", "", "stats", [("/a", statsFp 5 5)]⟩) ∧
    (⟨"cp", "", "stats", [("/a", statsFp 5 5)]⟩ : FileCache) =
      ⟨"cp", "", "stats", [("/a", statsFp 5 5)]⟩ :=
  ⟨rfl, C9_check_false_frame _ "/a" ⟨5, 5, "h"⟩ true _ rfl⟩

/-- C4 fails as stated: in `"stats"` mode a stored fingerprint whose
modification time is NEWER than the file's current one (with equal size)
differs from the current fingerprint, yet `check` returns `false` — the
code compares `current.mtimeMs > cached.mtimeMs`, not inequality. -/
theorem C4_counterexample :
    FileCache.check ⟨"cp", "", "stats", [("/a", statsFp 100 50)]⟩ "/a"
        ⟨50, 50, "h"⟩ true =
      .ok (false, ⟨"cp", "", "stats", [("/a", statsFp 100 50)]⟩) ∧
    statsFp 50 50 ≠ statsFp 100 50 :=
  ⟨rfl, by decide⟩

/-- C4 (amended): for a tracked path, `check` returns `true` exactly when,
in `"stats"`/`"statsdata"` mode, the current modification time is strictly
greater than the stored one or the size differs (in either direction), and,
in `"md5"` mode, when the content hash or the size differs (in either
direction); it returns `false` exactly when these comparisons see no
change. -/
theorem C4_check_staleness (fc : FileCache) (name0 : String) (obs : FileObs)
    (autoup : Bool) (fp : Fingerprint) (b : Bool) (fc' : FileCache)
    (hget : fc.get (fc.normalize name0) = some fp)
    (hrun : fc.check name0 obs autoup = .ok (b, fc')) :
    ((fc.checkType = "stats" ∨ fc.checkType = "statsdata") →
      b = (jsGtNum obs.mtimeMs fp.mtimeMs || obs.size != fp.size)) ∧
    (fc.checkType = "md5" →
      b = (jsNeqStr obs.md5 fp.md5 || obs.size != fp.size)) := by
  have hget' := hget
  simp only [FileCache.get] at hget'
  by_cases hg : fc.has (fc.normalize (fc.normalize name0))
  swap
  · rw [if_neg hg] at hget'
    exact absurd hget' (by simp)
  rw [if_pos hg] at hget'
  have hhas : fc.has (fc.normalize name0) = true :=
    mapGet_some_mapHas _ _ _ hget'
  have hne1 : (("statsdata" : String) = "stats") = False := eq_false (by decide)
  have hne2 : (("statsdata" : String) = "md5") = False := eq_false (by decide)
  have hne3 : (("md5" : String) = "stats") = False := eq_false (by decide)
  have hne4 : (("md5" : String) = "statsdata") = False := eq_false (by decide)
  constructor
  · rintro (hm | hm)
    · -- stats
      simp only [FileCache.check, hm, if_true, hhas, Bool.true_eq_false,
        if_false, hget] at hrun
      by_cases hcond :
          (jsGtNum obs.mtimeMs fp.mtimeMs || obs.size != fp.size) = true
      · rw [if_pos hcond] at hrun
        simp only [Except.ok.injEq, Prod.mk.injEq] at hrun
        rw [← hrun.1, hcond]
      · rw [if_neg (by simpa using hcond)] at hrun
        simp only [Except.ok.injEq, Prod.mk.injEq] at hrun
        rw [← hrun.1]
        cases hc2 : (jsGtNum obs.mtimeMs fp.mtimeMs || obs.size != fp.size)
        · rfl
        · exact absurd hc2 hcond
    · -- statsdata
      simp only [FileCache.check, hm, hne1, hne2, if_true, hhas,
        Bool.true_eq_false, if_false, hget] at hrun
      by_cases hcond :
          (jsGtNum obs.mtimeMs fp.mtimeMs || obs.size != fp.size) = true
      · rw [if_pos hcond] at hrun
        simp only [Except.ok.injEq, Prod.mk.injEq] at hrun
        rw [← hrun.1, hcond]
      · rw [if_neg (by simpa using hcond)] at hrun
        simp only [Except.ok.injEq, Prod.mk.injEq] at hrun
        rw [← hrun.1]
        cases hc2 : (jsGtNum obs.mtimeMs fp.mtimeMs || obs.size != fp.size)
        · rfl
        · exact absurd hc2 hcond
  · intro hm
    simp only [FileCache.check, hm, hne3, hne4, if_true, hhas,
      Bool.true_eq_false, if_false, hget] at hrun
    by_cases hcond : (jsNeqStr obs.md5 fp.md5 || obs.size != fp.size) = true
    · rw [if_pos hcond] at hrun
      simp only [Except.ok.injEq, Prod.mk.injEq] at hrun
      rw [← hrun.1, hcond]
    · rw [if_neg (by simpa using hcond)] at hrun
      simp only [Except.ok.injEq, Prod.mk.injEq] at hrun
      rw [← hrun.1]
      cases hc2 : (jsNeqStr obs.md5 fp.md5 || obs.size != fp.size)
      · rfl
      · exact absurd hc2 hcond

/-- A successful `FileCache.add` is a `set` at the re-normalized key. -/
theorem add_ok_eq_set (fc : FileCache) (x : String) (v : Fingerprint)
    (fc2 : FileCache) (h : fc.add x v = .ok fc2) :
    fc2 = fc.set (fc.normalize x) v := by
  simp only [FileCache.add] at h
  by_cases hh : fc.has (fc.normalize x)
  · simp [hh] at h
  · simp only [hh, Bool.false_eq_true, if_false] at h
    injection h with h2
    exact h2.symm

/-- C5 fails as stated: in `"md5"` mode with `autoUpdate = false`, a `true`
result still writes the new fingerprint into the table. -/
theorem C5_counterexample :
    FileCache.check ⟨"cp", "", "md5", []⟩ "/a" ⟨5, 7, "h"⟩ false =
      .ok (true, ⟨"cp", "", "md5", [("/a", md5Fp "h" 7)]⟩) ∧
    ([("/a", md5Fp "h" 7)] : List (String × Fingerprint)) ≠ [] :=
  ⟨rfl, by decide⟩

/-- C5 (amended): in `"stats"` mode a `true`-returning `check` writes the
new fingerprint exactly when `autoUpdate` is true and leaves the table
unchanged when it is false; `"statsdata"` never writes; `"md5"` always
writes on a `true` result, regardless of `autoUpdate`. -/
theorem C5_autoupdate_frame (fc : FileCache) (name0 : String) (obs : FileObs)
    (autoup : Bool) (b : Bool) (fc' : FileCache)
    (hrun : fc.check name0 obs autoup = .ok (b, fc')) :
    (fc.checkType = "stats" → autoup = false → fc' = fc) ∧
    (fc.checkType = "stats" → autoup = true → b = true →
      ∃ k, fc'.data = mapSet k (statsFp obs.mtimeMs obs.size) fc.data) ∧
    (fc.checkType = "statsdata" → fc' = fc) ∧
    (fc.checkType = "md5" → b = true →
      ∃ k, fc'.data = mapSet k (md5Fp obs.md5 obs.size) fc.data) := by
  have hne1 : (("statsdata" : String) = "stats") = False := eq_false (by decide)
  have hne2 : (("statsdata" : String) = "md5") = False := eq_false (by decide)
  have hne3 : (("md5" : String) = "stats") = False := eq_false (by decide)
  have hne4 : (("md5" : String) = "statsdata") = False := eq_false (by decide)
  refine ⟨?_, ?_, ?_, ?_⟩
  · intro hm ha
    simp only [FileCache.check, hm, ha, Bool.false_eq_true, if_false, if_true,
      eq_self_iff_true] at hrun
    split at hrun
    · simp at hrun; exact hrun.2.symm
    · split at hrun
      · simp at hrun
      · split at hrun
        · simp at hrun; exact hrun.2.symm
        · simp at hrun; exact hrun.2.symm
  · intro hm ha hb
    subst hb
    simp only [FileCache.check, hm, ha, if_true, eq_self_iff_true] at hrun
    split at hrun
    · split at hrun
      · rename_i fc2 heq
        have h2 : fc2 = fc.set (fc.normalize (fc.normalize name0))
            (statsFp obs.mtimeMs obs.size) := add_ok_eq_set _ _ _ _ heq
        simp only [Except.ok.injEq, Prod.mk.injEq, true_and] at hrun
        refine ⟨fc.normalize (fc.normalize (fc.normalize name0)), ?_⟩
        rw [← hrun, h2]
        rfl
      · simp at hrun
    · split at hrun
      · simp at hrun
      · rename_i cached heq
        split at hrun
        · simp only [Except.ok.injEq, Prod.mk.injEq, true_and] at hrun
          refine ⟨fc.normalize (fc.normalize name0), ?_⟩
          rw [← hrun]
          rfl
        · simp at hrun
  · intro hm
    simp only [FileCache.check, hm, hne1, hne2, if_true, if_false,
      eq_self_iff_true] at hrun
    split at hrun
    · simp at hrun; exact hrun.2.symm
    · split at hrun
      · simp at hrun
      · split at hrun
        · simp at hrun; exact hrun.2.symm
        · simp at hrun; exact hrun.2.symm
  · intro hm hb
    subst hb
    simp only [FileCache.check, hm, hne3, hne4, if_true, if_false,
      eq_self_iff_true] at hrun
    split at hrun
    · split at hrun
      · rename_i fc2 heq
        have h2 : fc2 = fc.set (fc.normalize (fc.normalize name0))
            (md5Fp obs.md5 obs.size) := add_ok_eq_set _ _ _ _ heq
        simp only [Except.ok.injEq, Prod.mk.injEq, true_and] at hrun
        refine ⟨fc.normalize (fc.normalize (fc.normalize name0)), ?_⟩
        rw [← hrun, h2]
        rfl
      · simp at hrun
    · split at hrun
      · simp at hrun
      · rename_i cached heq
        split at hrun
        · simp only [Except.ok.injEq, Prod.mk.injEq, true_and] at hrun
          refine ⟨fc.normalize (fc.normalize name0), ?_⟩
          rw [← hrun]
          rfl
        · simp at hrun

/-- Witness for C5 (amended): a `"stats"` check with `autoUpdate = true` on
a new path writes the fingerprint. -/
theorem C5_autoupdate_frame_witness :
    FileCache.check ⟨"cp", "", "stats", []⟩ "/a" ⟨5, 7, "h"⟩ true =
      .ok (true, ⟨"cp", "", "stats", [("/a", statsFp 5 7)]⟩) ∧
    ∃ k, (⟨"cp", "", "stats", [("/a", statsFp 5 7)]⟩ : FileCache).data =
      mapSet k (statsFp 5 7) (⟨"cp", "", "stats", []⟩ : FileCache).data :=
  ⟨rfl,
    (C5_autoupdate_frame ⟨"cp", "", "stats", []⟩ "/a" ⟨5, 7, "h"⟩ true true
      ⟨"cp", "", "stats", [("/a", statsFp 5 7)]⟩ rfl).2.1 rfl rfl rfl⟩

/-- Witness for C4 (amended) at a concrete tracked path whose size grew. -/
theorem C4_check_staleness_witness :
    FileCache.get ⟨"cp", "", "stats", [("/a", statsFp 5 5)]⟩
        (FileCache.normalize ⟨"cp", "", "stats", [("/a", statsFp 5 5)]⟩ "/a") =
      some (statsFp 5 5) ∧
    FileCache.check ⟨"cp", "", "stats", [("/a", statsFp 5 5)]⟩ "/a"
        ⟨5, 6, "h"⟩ true =
      .ok (true, ⟨"cp", "", "stats", [("/a", statsFp 5 6)]⟩) ∧
    ((true : Bool) = (jsGtNum (5 : Int) (some 5) || (6 != 5))) :=
  ⟨rfl, rfl,
    ((C4_check_staleness ⟨"cp", "", "stats", [("/a", statsFp 5 5)]⟩ "/a"
        ⟨5, 6, "h"⟩ true (statsFp 5 5) true
        ⟨"cp", "", "stats", [("/a", statsFp 5 6)]⟩ rfl rfl).1 (Or.inl rfl))⟩

/-- C6 fails as stated: loading from a missing directory with an explicitly
supplied list that names an already-registered group raises instead of
succeeding — the loop calls `addGroup` unguarded, and the always-registered
sentinel `"_"` is the simplest such name. -/
theorem C6_counterexample :
    (cacheLoadMissingDir (cacheResetState : Cache Nat) (some ["_"])).2 =
      some (.reservedGroup (addGroupReservedMsg "_")) ∧
    (cacheResetState : Cache Nat).hasGroup "_" = true :=
  ⟨rfl, rfl⟩

/-- What the sequential `addGroup` loop does when every supplied name is
fresh and non-reserved: it succeeds and registers exactly the supplied
groups, empty, on top of the existing ones. -/
theorem addGroupsSeq_spec {α : Type} (gs : List String) (c : Cache α)
    (hnd : gs.Nodup) (hok : ∀ g ∈ gs, g ≠ "_" ∧ c.hasGroup g = false) :
    (addGroupsSeq c gs).2 = none ∧
    ∀ k, mapGet k (addGroupsSeq c gs).1.groups =
      if k ∈ gs then some (mkCacheGroup k) else mapGet k c.groups := by
  induction gs generalizing c with
  | nil =>
    refine ⟨rfl, fun k => ?_⟩
    simp [addGroupsSeq]
  | cons g t ih =>
    obtain ⟨hg1, hg2⟩ := hok g (List.mem_cons_self g t)
    have hstep : c.addGroup g = .ok ⟨mapSet g (mkCacheGroup g) c.groups⟩ := by
      simp [Cache.addGroup, hg1, hg2]
    have hgt : g ∉ t := (List.nodup_cons.mp hnd).1
    have hnd' : t.Nodup := (List.nodup_cons.mp hnd).2
    have hok' : ∀ x ∈ t, x ≠ "_" ∧
        (⟨mapSet g (mkCacheGroup g) c.groups⟩ : Cache α).hasGroup x = false := by
      intro x hx
      obtain ⟨hx1, hx2⟩ := hok x (List.mem_cons_of_mem _ hx)
      refine ⟨hx1, ?_⟩
      show mapHas x (mapSet g (mkCacheGroup g) c.groups) = false
      rw [mapHas_mapSet]
      have : ¬ (g = x) := fun he => hgt (he ▸ hx)
      simp [this]
      exact hx2
    obtain ⟨ih1, ih2⟩ := ih _ hnd' hok'
    have hrun : addGroupsSeq c (g :: t) =
        addGroupsSeq (⟨mapSet g (mkCacheGroup g) c.groups⟩ : Cache α) t := by
      simp [addGroupsSeq, hstep]
    refine ⟨by rw [hrun]; exact ih1, fun k => ?_⟩
    rw [hrun, ih2 k]
    by_cases hkt : k ∈ t
    · simp [hkt, List.mem_cons_of_mem]
    · by_cases hkg : k = g
      · subst hkg
        simp only [hkt, if_false, List.mem_cons, eq_self_iff_true, true_or,
          if_true]
        rw [mapGet_mapSet]
        simp
      · have hknot : k ∉ g :: t := by
          intro hmem
          rcases List.mem_cons.mp hmem with h | h
          · exact hkg h
          · exact hkt h
        simp only [hkt, if_false, hknot, if_neg hknot]
        show mapGet k (mapSet g (mkCacheGroup g) c.groups) = mapGet k c.groups
        rw [mapGet_mapSet]
        have : ¬ (g = k) := fun he => hkg he.symm
        simp [this]

/-- C6 (amended): `Cache.load` on a missing directory with an explicitly
supplied group list logs a warning, creates each supplied group empty and
completes without error, provided the supplied names are pairwise distinct
and none of them is already registered (in particular none is the reserved
`"_"`); a supplied name that is already registered makes the load throw
instead. -/
theorem C6_load_missing_dir {α : Type} (c : Cache α) (gs : List String)
    (hnd : gs.Nodup) (hok : ∀ g ∈ gs, g ≠ "_" ∧ c.hasGroup g = false) :
    (cacheLoadMissingDir c (some gs)).2 = none ∧
    ∀ g ∈ gs, (cacheLoadMissingDir c (some gs)).1.getGroup g =
      .ok (mkCacheGroup g) := by
  obtain ⟨h1, h2⟩ := addGroupsSeq_spec gs c hnd hok
  refine ⟨h1, fun g hg => ?_⟩
  have hget : mapGet g (addGroupsSeq c gs).1.groups = some (mkCacheGroup g) := by
    rw [h2 g]
    simp [hg]
  have hhas : (addGroupsSeq c gs).1.hasGroup g = true :=
    mapGet_some_mapHas _ _ _ hget
  show (addGroupsSeq c gs).1.getGroup g = .ok (mkCacheGroup g)
  simp only [Cache.getGroup, hhas, Bool.true_eq_false, if_false, hget]

/-- Witness for C6 (amended) at two fresh group names. -/
theorem C6_load_missing_dir_witness :
    (["pages", "posts"] : List String).Nodup ∧
    (cacheLoadMissingDir (cacheResetState : Cache Nat)
        (some ["pages", "posts"])).2 = none :=
  ⟨by decide,
    (C6_load_missing_dir (cacheResetState : Cache Nat) ["pages", "posts"]
      (by decide) (by decide)).1⟩

/-- C7 fails as stated: JS `String.replace` removes the FIRST occurrence of
the site root anywhere in the path, not only a leading prefix, so a
root-relative path containing the site root as an inner substring is stored
under a different key than its absolute form — here `"/s" ++ "/x/s"` (the
absolute form) keys `"/x/s"` while the root-relative form `"/x/s"` keys
`"/x"`. -/
theorem C7_counterexample :
    (FileCache.set ⟨"cp", "/s", "stats", []⟩ ("/s" ++ "/x/s")
        (statsFp 1 1)).data = [("/x/s", statsFp 1 1)] ∧
    (FileCache.set ⟨"cp", "/s", "stats", []⟩ "/x/s"
        (statsFp 1 1)).data = [("/x", statsFp 1 1)] ∧
    FileCache.set ⟨"cp", "/s", "stats", []⟩ ("/s" ++ "/x/s") (statsFp 1 1) ≠
      FileCache.set ⟨"cp", "/s", "stats", []⟩ "/x/s" (statsFp 1 1) :=
  ⟨rfl, rfl, by decide⟩

/-- C7 (amended): provided the root-relative path does not contain the
configured site root as a substring, every item operation behaves the same
whether the caller passes the absolute form (site root prepended) or the
root-relative form, both normalizing to the same key; and every stored key
begins with a slash (the normalizer output always does). -/
theorem C7_path_insensitive (fc : FileCache) (rel : String) (v : Fingerprint)
    (h1 : jsStartsWith rel "/" = true)
    (h2 : occursIn fc.sitePath rel = false) :
    fc.normalize (fc.sitePath ++ rel) = rel ∧
    fc.normalize rel = rel ∧
    fc.has (fc.sitePath ++ rel) = fc.has rel ∧
    fc.get (fc.sitePath ++ rel) = fc.get rel ∧
    fc.set (fc.sitePath ++ rel) v = fc.set rel v ∧
    fc.add (fc.sitePath ++ rel) v = fc.add rel v ∧
    fc.del (fc.sitePath ++ rel) = fc.del rel ∧
    ∀ name, jsStartsWith (fc.normalize name) "/" = true := by
  have hA : fc.normalize (fc.sitePath ++ rel) = rel := by
    show addLeadingSlash (jsReplaceOnce (fc.sitePath ++ rel) fc.sitePath) = rel
    show addLeadingSlash
        ⟨removeFirstL fc.sitePath.data (fc.sitePath ++ rel).data⟩ = rel
    rw [String.data_append, removeFirstL_append_self]
    exact addLeadingSlash_of_startsWith rel h1
  have hB : fc.normalize rel = rel := by
    show addLeadingSlash ⟨removeFirstL fc.sitePath.data rel.data⟩ = rel
    rw [removeFirstL_of_not_occurs _ _ h2]
    exact addLeadingSlash_of_startsWith rel h1
  refine ⟨hA, hB, ?_, ?_, ?_, ?_, ?_, ?_⟩
  · show mapHas (fc.normalize (fc.sitePath ++ rel)) fc.data =
      mapHas (fc.normalize rel) fc.data
    rw [hA, hB]
  · simp only [FileCache.get, hA, hB]
  · simp only [FileCache.set, hA, hB]
  · simp only [FileCache.add, hA, hB]
  · simp only [FileCache.del, hA, hB]
  · intro name
    exact addLeadingSlash_startsWith _

/-- Witness for C7 (amended) at a concrete site root and path. -/
theorem C7_path_insensitive_witness :
    jsStartsWith "/x" "/" = true ∧
    FileCache.has ⟨"cp", "/s", "stats", []⟩ ("/s" ++ "/x") =
      FileCache.has ⟨"cp", "/s", "stats", []⟩ "/x" :=
  ⟨rfl,
    (C7_path_insensitive ⟨"cp", "/s", "stats", []⟩ "/x" (statsFp 1 1) rfl
      rfl).2.2.1⟩

/-- C8 fails on the code: `FileCache.save` passes the misspelled option
`{recurse: true}` to `fs.mkdirSync` (Node expects `recursive`), so the
mkdir is single-level; with the cache file's grandparent directory also
missing it throws `ENOENT` instead of creating the directories recursively,
while `CacheGroup.save` on the same input succeeds via
`FsUtils.mkDirRecurse` exactly as the claim describes. -/
theorem C8_save_not_recursive :
    fileCacheSaveFS ([("/a", statsFp 1 2)] : List (String × Fingerprint))
        ["a", "b", "cache.json"] ⟨[], []⟩ = .error .enoent ∧
    cacheGroupSaveFS ([("/a", statsFp 1 2)] : List (String × Fingerprint))
        ["a", "b", "cache.json"] ⟨[], []⟩ =
      ⟨[["a"], ["a", "b"]],
        [(["a", "b", "cache.json"], [("/a", statsFp 1 2)])]⟩ :=
  ⟨rfl, rfl⟩

/-- Witness for C3 at a concrete group and key. -/
theorem C3_add_then_duplicate_witness :
    (mkCacheGroup "grp" : CacheGroup Nat).has "x" = false ∧
    (mkCacheGroup "grp" : CacheGroup Nat).add "x" 7 =
      .ok ((mkCacheGroup "grp" : CacheGroup Nat).set "x" 7) :=
  ⟨rfl, (C3_add_then_duplicate (mkCacheGroup "grp") "x" 7 8 rfl).1⟩

end GfUtils
